import Mathlib

/-!
Verification development for the embedded-hal bus traits
(`src/i2c.rs`, `embedded-hal-async/src/spi.rs`, `embedded-hal-async/src/serial.rs`).

The crate under study declares the trait surface (data types, error taxonomy,
method contracts as doc comments) but ships no sequencer body; the transaction
sequencer, the single-operation facade, the SPI full-duplex transfer and the
on-wire address encoding are therefore modelled from the specification, as
flagged on each such definition.
-/

/-! ## Error taxonomy (src/i2c.rs, `ErrorKind`, `NoAcknowledgeSource`, `Error`) -/
/-- The `NoAcknowledgeSource` from src/i2c.rs: the three sources of a NACK. -/
inductive NoAcknowledgeSource
  | Address
  | Data
  | Unknown
  deriving DecidableEq

/-- The `ErrorKind` from src/i2c.rs: the common set of I2C operation errors. -/
inductive ErrorKind
  | Bus
  | ArbitrationLoss
  | NoAcknowledge (source : NoAcknowledgeSource)
  | Overrun
  | Other
  deriving DecidableEq

/-- The `impl Error for ErrorKind`: the kind of an `ErrorKind` is itself (`*self`). -/
def ErrorKind.kind (e : ErrorKind) : ErrorKind := e

/-- The `Error` trait from src/i2c.rs: an implementation-specific error type `E`
together with its normalization `kind` into the common `ErrorKind` set. -/
structure Error (E : Type) where
  kind : E → ErrorKind

/-- The `impl Error for core::convert::Infallible` instance: an uninhabited error. -/
def infallibleError : Error Empty :=
  { kind := fun e => e.elim }

/-! ## Address modes (src/i2c.rs, `AddressMode`, `SevenBitAddress`, `TenBitAddress`) -/
/-- The `SevenBitAddress` from src/i2c.rs is `u8`: values below 2^8. -/
abbrev SevenBitAddress := Fin 256

/-- The `TenBitAddress` from src/i2c.rs is `u16`: values below 2^16. -/
abbrev TenBitAddress := Fin 65536

/-- The sealed `AddressMode` trait from src/i2c.rs has exactly the two
implementations `SevenBitAddress` and `TenBitAddress`; as a closed set it is
this two-variant type. -/
inductive AddressMode
  | SevenBit
  | TenBit
  deriving DecidableEq

/-! ## Operations and bus directions -/
/-- Direction of a bus operation. -/
inductive Direction
  | read
  | write
  deriving DecidableEq

/-- The `Operation` from src/i2c.rs: `Read` borrows a mutable buffer (modelled by its
length, since only the length affects sequencing) and `Write` borrows bytes. -/
inductive Operation
  | Read (len : Nat)
  | Write (bytes : List Nat)
  deriving DecidableEq

/-- The direction of an operation. -/
def Operation.dir : Operation → Direction
  | .Read _ => .read
  | .Write _ => .write

/-! ## Partition of an operation list into maximal same-direction runs -/
/-- Direction of a run (direction of its first operation; runs are nonempty). -/
def runDir : List Operation → Direction
  | [] => .write
  | o :: _ => o.dir

/-- Partition an operation list into maximal contiguous same-direction runs,
preserving order (spec §3 "Run" and §4.2 step 1). -/
def runsOf : List Operation → List (List Operation)
  | [] => []
  | [op] => [[op]]
  | op :: op2 :: rest =>
    match runsOf (op2 :: rest) with
    | [] => [[op]]
    | r :: rs =>
      if op.dir = op2.dir then (op :: r) :: rs else [op] :: r :: rs

/-- Adjacent runs have different directions (maximality of runs). -/
def altRuns : List (List Operation) → Prop
  | [] => True
  | [_] => True
  | r :: r2 :: rest => runDir r ≠ runDir r2 ∧ altRuns (r2 :: rest)

/-- All operations of a run share the run's direction. -/
def uniformRun (r : List Operation) : Prop :=
  ∀ o ∈ r, o.dir = runDir r

/-! ## Bus primitive backend and the transaction sequencer (spec §4.1, §4.2)

The crate declares `blocking::Transactional::exec` only as a trait method with a
doc-comment contract; the sequencer body is not in the source tree, so it is
modelled from the specification below. -/
/-- The five primitive calls of the bus-primitive backend (spec §4.1).
`stop` is the spec's `end()` call (`end` is a reserved word here). -/
inductive Prim
  | begin (d : Direction) (address : Nat)
  | continueWith (d : Direction) (address : Nat)
  | send (bytes : List Nat)
  | receive (len : Nat) (lastByteNoAck : Bool)
  | stop
  deriving DecidableEq

/-- Is this primitive a `begin` call? -/
def Prim.isBegin : Prim → Bool
  | .begin _ _ => true
  | _ => false

/-- Is this primitive a `continue_with` (repeated start) call? -/
def Prim.isContinue : Prim → Bool
  | .continueWith _ _ => true
  | _ => false

/-- Is this primitive a `stop` (the spec's `end()`) call? -/
def Prim.isStop : Prim → Bool
  | .stop => true
  | _ => false

/-- Is this primitive a transaction-opening framing call (`begin`/`continue_with`)? -/
def Prim.isFraming : Prim → Bool
  | .begin _ _ => true
  | .continueWith _ _ => true
  | _ => false

/-- Is this primitive a data call (`send`/`receive`)? -/
def Prim.isData : Prim → Bool
  | .send _ => true
  | .receive _ _ => true
  | _ => false

/-- Sequencer bookkeeping: `n` counts primitive calls issued so far (the index of
the next call) and `tr` is the trace of calls issued, in order. -/
structure St where
  n : Nat
  tr : List Prim
  deriving DecidableEq

/-- Issue one primitive call. The backend's outcome for the i-th call of the
transaction is `fail i` (`none` = success, `some e` = the fault `e`). -/
def call (fail : Nat → Option ErrorKind) (s : St) (p : Prim) : St × Option ErrorKind :=
  (⟨s.n + 1, s.tr ++ [p]⟩, fail s.n)

/-- The primitive dispatching one operation: `send` for a Write, `receive` for a
Read, carrying the `last_byte_no_ack` flag (spec §4.1, §4.2 steps 4 and 6). -/
def opPrim (lastNoAck : Bool) : Operation → Prim
  | .Read len => .receive len lastNoAck
  | .Write bytes => .send bytes

/-- Modelled from the spec: §4.2 step 4 — dispatch the operations of one run
back-to-back with no intervening framing; §4.2 step 6 — the receive call of the
final operation of the final run carries `last_byte_no_ack = true`. Aborts at
the first failing call. -/
def dispatchRun (fail : Nat → Option ErrorKind) :
    St → Bool → List Operation → St × Option ErrorKind
  | s, _, [] => (s, none)
  | s, isLastRun, op :: rest =>
    match call fail s (opPrim (rest.isEmpty && isLastRun) op) with
    | (s1, some e) => (s1, some e)
    | (s1, none) => dispatchRun fail s1 isLastRun rest

/-- The framing call opening a run: `begin` for the first run, `continue_with`
(repeated start) for every later run (spec §4.2 steps 2 and 3). -/
def framingPrim (first : Bool) (d : Direction) (address : Nat) : Prim :=
  if first then .begin d address else .continueWith d address

/-- Modelled from the spec: §4.2 steps 2–5 — open each run with its framing
call, dispatch its operations, and on a data-call failure still issue the
closing `end()` (`stop`); a failing framing call aborts with no further
primitive calls (no `end()`). -/
def goRuns (fail : Nat → Option ErrorKind) (address : Nat) :
    St → Bool → List (List Operation) → St × Option ErrorKind
  | s, _, [] => (s, none)
  | s, first, r :: rs =>
    match call fail s (framingPrim first (runDir r) address) with
    | (s1, some e) => (s1, some e)
    | (s1, none) =>
      match dispatchRun fail s1 rs.isEmpty r with
      | (s2, some e) =>
        match call fail s2 .stop with
        | (s3, _) => (s3, some e)
      | (s2, none) => goRuns fail address s2 false rs

/-- Modelled from the spec: the transaction sequencer behind
`blocking::Transactional::exec` (src/i2c.rs declares only the trait method and
its contract; spec §4.2 gives the body). Returns the trace of primitive calls
issued and the result. An empty transaction fails with `Other` before any
primitive call; otherwise the runs are dispatched and the transaction is closed
with `end()` (`stop`), whose own failure is reported only when everything else
succeeded. -/
def exec (fail : Nat → Option ErrorKind) (address : Nat) (ops : List Operation) :
    List Prim × Option ErrorKind :=
  match runsOf ops with
  | [] => ([], some .Other)
  | r :: rs =>
    match goRuns fail address ⟨0, []⟩ true (r :: rs) with
    | (s, some e) => (s.tr, some e)
    | (s, none) =>
      match call fail s .stop with
      | (s2, e2) => (s2.tr, e2)

/-- Modelled from the spec: §4.3 — `WriteRead::write_read` (the facade's
`write_then_read`) is exactly the two-operation transaction
`[Write bytes, Read len]` routed through the sequencer. -/
def write_read (fail : Nat → Option ErrorKind) (address : Nat)
    (bytes : List Nat) (len : Nat) : List Prim × Option ErrorKind :=
  exec fail address [Operation.Write bytes, Operation.Read len]

/-! ## Expected traces (the no-failure primitive call sequence of §4.2) -/
/-- The data calls of one run; the flag of the final operation's receive is
`isLastRun`. -/
def runTrace : Bool → List Operation → List Prim
  | _, [] => []
  | isLastRun, op :: rest =>
    opPrim (rest.isEmpty && isLastRun) op :: runTrace isLastRun rest

/-- The framing and data calls of a run list (`first` marks the first run of the
transaction, opened with `begin` instead of `continue_with`). -/
def runsTrace (address : Nat) : Bool → List (List Operation) → List Prim
  | _, [] => []
  | first, r :: rs =>
    framingPrim first (runDir r) address ::
      (runTrace rs.isEmpty r ++ runsTrace address false rs)

/-- The complete no-failure primitive call sequence of a transaction with the
given runs: framing and data calls, closed by `end()` (`stop`). -/
def expectedTrace (address : Nat) (runs : List (List Operation)) : List Prim :=
  runsTrace address true runs ++ [Prim.stop]

/-- Number of primitive calls dispatching a run list (one framing call per run
plus one data call per operation), excluding the closing `stop`. -/
def runsLen : List (List Operation) → Nat
  | [] => 0
  | r :: rs => r.length + 1 + runsLen rs

/-- The backend reports no fault for the `len` calls starting at call `n`. -/
def allOk (fail : Nat → Option ErrorKind) (n len : Nat) : Prop :=
  ∀ j, j < len → fail (n + j) = none

/-! ## Counting framing calls and collecting receive flags -/
/-- Number of `begin` calls in a trace. -/
def countBegin (tr : List Prim) : Nat := tr.countP Prim.isBegin

/-- Number of `continue_with` (repeated start) calls in a trace. -/
def countContinue (tr : List Prim) : Nat := tr.countP Prim.isContinue

/-- Number of `end()` (`stop`) calls in a trace. -/
def countStop (tr : List Prim) : Nat := tr.countP Prim.isStop

/-- The `last_byte_no_ack` flag of a receive call, `none` for other primitives. -/
def receiveFlag? : Prim → Option Bool
  | .receive _ b => some b
  | _ => none

/-- The `last_byte_no_ack` flags of the receive calls of a trace, in order. -/
def receiveFlags (tr : List Prim) : List Bool := tr.filterMap receiveFlag?

/-! ## SPI full-duplex transfer (spec §4.4; embedded-hal-async/src/spi.rs) -/
/-- Word-times after the read buffer is exhausted: each remaining write word is
transmitted and the incoming word of that word-time is discarded. -/
def transferDrain {W : Type} (inc : Nat → W) : Nat → List W → List W × List W
  | _, [] => ([], [])
  | i, w :: ws =>
    ((transferDrain inc (i + 1) ws).1, w :: (transferDrain inc (i + 1) ws).2)

/-- One word-time per step while either buffer has words left: the outgoing word
is the next write word, or the implementation-chosen `filler` once the write
buffer is exhausted; the incoming word `inc i` of word-time `i` is stored while
the read buffer has room (`m` counts the room left) and discarded afterwards. -/
def transferGo {W : Type} (inc : Nat → W) (filler : W) :
    Nat → Nat → List W → List W × List W
  | i, 0, ws => transferDrain inc i ws
  | i, m + 1, [] =>
    (inc i :: (transferGo inc filler (i + 1) m []).1,
      filler :: (transferGo inc filler (i + 1) m []).2)
  | i, m + 1, w :: ws =>
    (inc i :: (transferGo inc filler (i + 1) m ws).1,
      w :: (transferGo inc filler (i + 1) m ws).2)

/-- Modelled from the spec: §4.4 and the doc contract of `ReadWrite::transfer`
in embedded-hal-async/src/spi.rs (the trait declares no body). A full-duplex
transfer with a read buffer of length `m`, write buffer `write`, incoming word
stream `inc` and implementation-chosen filler word; returns the words stored
into the read buffer and the words transmitted on MOSI, in wire order. -/
def transfer {W : Type} (m : Nat) (write : List W) (inc : Nat → W) (filler : W) :
    List W × List W :=
  transferGo inc filler 0 m write

/-! ## On-wire address encoding (spec §6; src/i2c.rs doc contracts) -/
/-- The direction bit of the address byte: 1 = read, 0 = write. -/
def Direction.bit : Direction → Nat
  | .read => 1
  | .write => 0

/-- Modelled from the spec: §6 on-wire address representation (src/i2c.rs gives
only the event diagrams `SAD+R/W` in the `Read`/`Write` doc contracts). 7-bit
mode emits one byte: the address shifted left once with the direction in bit 0.
10-bit mode emits two bytes: the fixed `11110` prefix, the two high address
bits and the direction bit, then the low eight address bits. -/
def encodeAddress : AddressMode → Nat → Direction → List Nat
  | .SevenBit, a, d => [(a <<< 1) ||| d.bit]
  | .TenBit, a, d => [0xF0 ||| (((a >>> 8) <<< 1) ||| d.bit), a % 256]

/-! ## Operating through an exclusive reference (`impl Trait for &mut T`)

Each trait is modelled as a record of its methods over an abstract backend
state `S`; a `&mut T` handle shares the referent's state, and the blanket
forwarding impl produces a record whose every method calls the underlying
record's method with the same arguments. -/
/-- The `blocking::Read` from src/i2c.rs: `read address len` returns the filled
buffer or the error. -/
structure I2cRead (S E : Type) where
  read : S → Nat → Nat → S × Except E (List Nat)

/-- The `blocking::Write` from src/i2c.rs. -/
structure I2cWrite (S E : Type) where
  write : S → Nat → List Nat → S × Option E

/-- The `blocking::WriteIter` from src/i2c.rs (the iterator is modelled by the list
of words it yields). -/
structure I2cWriteIter (S E : Type) where
  write_iter : S → Nat → List Nat → S × Option E

/-- The `blocking::WriteRead` from src/i2c.rs. -/
structure I2cWriteRead (S E : Type) where
  write_read : S → Nat → List Nat → Nat → S × Except E (List Nat)

/-- The `blocking::WriteIterRead` from src/i2c.rs. -/
structure I2cWriteIterRead (S E : Type) where
  write_iter_read : S → Nat → List Nat → Nat → S × Except E (List Nat)

/-- The `blocking::Transactional` from src/i2c.rs. -/
structure I2cTransactional (S E : Type) where
  exec : S → Nat → List Operation → S × Option E

/-- The `blocking::TransactionalIter` from src/i2c.rs. -/
structure I2cTransactionalIter (S E : Type) where
  exec_iter : S → Nat → List Operation → S × Option E

/-- The `spi::blocking::Operation` as re-exported by embedded-hal-async/src/spi.rs. -/
inductive SpiOperation
  | Read (len : Nat)
  | Write (words : List Nat)

/-- Async `spi::Read` from embedded-hal-async/src/spi.rs (a method's future is
modelled by the result it resolves to). -/
structure SpiRead (S E : Type) where
  read : S → Nat → S × Except E (List Nat)
  read_transaction : S → List Nat → S × Except E (List (List Nat))

/-- Async `spi::Write` from embedded-hal-async/src/spi.rs. -/
structure SpiWrite (S E : Type) where
  write : S → List Nat → S × Option E
  write_transaction : S → List (List Nat) → S × Option E

/-- Async `spi::ReadWrite` from embedded-hal-async/src/spi.rs. -/
structure SpiReadWrite (S E : Type) where
  transfer : S → Nat → List Nat → S × Except E (List Nat)
  transfer_in_place : S → List Nat → S × Except E (List Nat)
  transaction : S → List SpiOperation → S × Option E

/-- Async `serial::Read` from embedded-hal-async/src/serial.rs. -/
structure SerialRead (S E : Type) where
  read : S → Nat → S × Except E (List Nat)

/-- Async `serial::Write` from embedded-hal-async/src/serial.rs. -/
structure SerialWrite (S E : Type) where
  write : S → List Nat → S × Option E
  flush : S → S × Option E

/-- The `impl<A, T: Read<A>> Read<A> for &mut T` from src/i2c.rs: forward to `T`. -/
def I2cRead.mutRef {S E : Type} (t : I2cRead S E) : I2cRead S E :=
  { read := fun s address len => t.read s address len }

/-- The `impl<A, T: Write<A>> Write<A> for &mut T` from src/i2c.rs. -/
def I2cWrite.mutRef {S E : Type} (t : I2cWrite S E) : I2cWrite S E :=
  { write := fun s address bytes => t.write s address bytes }

/-- The `impl<A, T: WriteIter<A>> WriteIter<A> for &mut T` from src/i2c.rs. -/
def I2cWriteIter.mutRef {S E : Type} (t : I2cWriteIter S E) : I2cWriteIter S E :=
  { write_iter := fun s address bytes => t.write_iter s address bytes }

/-- The `impl<A, T: WriteRead<A>> WriteRead<A> for &mut T` from src/i2c.rs. -/
def I2cWriteRead.mutRef {S E : Type} (t : I2cWriteRead S E) : I2cWriteRead S E :=
  { write_read := fun s address bytes len => t.write_read s address bytes len }

/-- The `impl<A, T: WriteIterRead<A>> WriteIterRead<A> for &mut T` from src/i2c.rs. -/
def I2cWriteIterRead.mutRef {S E : Type} (t : I2cWriteIterRead S E) :
    I2cWriteIterRead S E :=
  { write_iter_read := fun s address bytes len => t.write_iter_read s address bytes len }

/-- The `impl<A, T: Transactional<A>> Transactional<A> for &mut T` from src/i2c.rs. -/
def I2cTransactional.mutRef {S E : Type} (t : I2cTransactional S E) :
    I2cTransactional S E :=
  { exec := fun s address operations => t.exec s address operations }

/-- The `impl<A, T: TransactionalIter<A>> TransactionalIter<A> for &mut T` from src/i2c.rs. -/
def I2cTransactionalIter.mutRef {S E : Type} (t : I2cTransactionalIter S E) :
    I2cTransactionalIter S E :=
  { exec_iter := fun s address operations => t.exec_iter s address operations }

/-- The `impl<T: Read<Word>, Word> Read<Word> for &mut T` from embedded-hal-async/src/spi.rs. -/
def SpiRead.mutRef {S E : Type} (t : SpiRead S E) : SpiRead S E :=
  { read := fun s len => t.read s len,
    read_transaction := fun s lens => t.read_transaction s lens }

/-- The `impl<T: Write<Word>, Word> Write<Word> for &mut T` from embedded-hal-async/src/spi.rs. -/
def SpiWrite.mutRef {S E : Type} (t : SpiWrite S E) : SpiWrite S E :=
  { write := fun s words => t.write s words,
    write_transaction := fun s wordLists => t.write_transaction s wordLists }

/-- The `impl<T: ReadWrite<Word>, Word> ReadWrite<Word> for &mut T` from
embedded-hal-async/src/spi.rs. -/
def SpiReadWrite.mutRef {S E : Type} (t : SpiReadWrite S E) : SpiReadWrite S E :=
  { transfer := fun s readLen writeWords => t.transfer s readLen writeWords,
    transfer_in_place := fun s words => t.transfer_in_place s words,
    transaction := fun s operations => t.transaction s operations }

/-- The `impl<T: Read<Word>, Word> Read<Word> for &mut T` from embedded-hal-async/src/serial.rs. -/
def SerialRead.mutRef {S E : Type} (t : SerialRead S E) : SerialRead S E :=
  { read := fun s len => t.read s len }

/-- The `impl<T: Write<Word>, Word> Write<Word> for &mut T` from embedded-hal-async/src/serial.rs. -/
def SerialWrite.mutRef {S E : Type} (t : SerialWrite S E) : SerialWrite S E :=
  { write := fun s words => t.write s words,
    flush := fun s => t.flush s }

/-- A backend that fails exactly the second primitive call (used as the
concrete input of the C4 witness). -/
def failAtSend (n : Nat) : Option ErrorKind :=
  if n = 1 then some ErrorKind.Bus else none

theorem runsOf_cons_shape (a : Operation) (l : List Operation) :
    ∃ t rs, runsOf (a :: l) = (a :: t) :: rs := by
  cases l with
  | nil => exact ⟨[], [], rfl⟩
  | cons b l' =>
    obtain ⟨t, rs, hb⟩ := runsOf_cons_shape b l'
    by_cases h : a.dir = b.dir
    · refine ⟨b :: t, rs, ?_⟩
      simp [runsOf, hb, h]
    · refine ⟨[], (b :: t) :: rs, ?_⟩
      simp [runsOf, hb, h]

theorem runsOf_eq_nil_iff (l : List Operation) : runsOf l = [] ↔ l = [] := by
  cases l with
  | nil => simp [runsOf]
  | cons a l' =>
    obtain ⟨t, rs, h⟩ := runsOf_cons_shape a l'
    simp [h]

theorem runsOf_join (l : List Operation) : (runsOf l).flatten = l := by
  cases l with
  | nil => simp [runsOf]
  | cons a l' =>
    cases l' with
    | nil => simp [runsOf]
    | cons b l'' =>
      have ih := runsOf_join (b :: l'')
      obtain ⟨t, rs, hb⟩ := runsOf_cons_shape b l''
      by_cases h : a.dir = b.dir
      · simp only [runsOf, hb, if_pos h]
        rw [hb] at ih
        simpa using ih
      · simp only [runsOf, hb, if_neg h]
        rw [hb] at ih
        simpa using ih

theorem runsOf_ne_nil (l : List Operation) :
    ∀ r ∈ runsOf l, r ≠ [] := by
  cases l with
  | nil => simp [runsOf]
  | cons a l' =>
    cases l' with
    | nil => simp [runsOf]
    | cons b l'' =>
      have ih := runsOf_ne_nil (b :: l'')
      obtain ⟨t, rs, hb⟩ := runsOf_cons_shape b l''
      rw [hb] at ih
      by_cases h : a.dir = b.dir
      · simp only [runsOf, hb, if_pos h]
        intro r hr
        simp only [List.mem_cons] at hr
        rcases hr with rfl | hr
        · simp
        · exact ih r (by simp [hr])
      · simp only [runsOf, hb, if_neg h]
        intro r hr
        simp only [List.mem_cons] at hr
        rcases hr with rfl | hr | hr
        · simp
        · exact ih r (by simp [hr])
        · exact ih r (by simp [hr])

theorem runsOf_uniform (l : List Operation) :
    ∀ r ∈ runsOf l, uniformRun r := by
  cases l with
  | nil => simp [runsOf]
  | cons a l' =>
    cases l' with
    | nil =>
      simp only [runsOf]
      intro r hr
      simp only [List.mem_singleton] at hr
      subst hr
      intro o ho
      simp only [List.mem_singleton] at ho
      subst ho
      rfl
    | cons b l'' =>
      have ih := runsOf_uniform (b :: l'')
      obtain ⟨t, rs, hb⟩ := runsOf_cons_shape b l''
      rw [hb] at ih
      by_cases h : a.dir = b.dir
      · simp only [runsOf, hb, if_pos h]
        intro r hr
        simp only [List.mem_cons] at hr
        rcases hr with rfl | hr
        · have hbt : uniformRun (b :: t) := ih (b :: t) (by simp)
          intro o ho
          simp only [List.mem_cons] at ho
          rcases ho with rfl | ho
          · rfl
          · have := hbt o (List.mem_cons.mpr ho)
            simp only [runDir] at this ⊢
            rw [this, ← h]
        · exact ih r (by simp [hr])
      · simp only [runsOf, hb, if_neg h]
        intro r hr
        simp only [List.mem_cons] at hr
        rcases hr with rfl | hr | hr
        · intro o ho
          simp only [List.mem_singleton] at ho
          subst ho
          rfl
        · exact ih r (by simp [hr])
        · exact ih r (by simp [hr])

theorem runsOf_alt (l : List Operation) : altRuns (runsOf l) := by
  cases l with
  | nil => simp [runsOf, altRuns]
  | cons a l' =>
    cases l' with
    | nil => simp [runsOf, altRuns]
    | cons b l'' =>
      have ih := runsOf_alt (b :: l'')
      obtain ⟨t, rs, hb⟩ := runsOf_cons_shape b l''
      rw [hb] at ih
      by_cases h : a.dir = b.dir
      · simp only [runsOf, hb, if_pos h]
        cases rs with
        | nil => simp [altRuns]
        | cons r2 rs' =>
          simp only [altRuns] at ih ⊢
          refine ⟨?_, ih.2⟩
          have : runDir (a :: b :: t) = runDir (b :: t) := by
            simp [runDir, h]
          rw [this]
          exact ih.1
      · simp only [runsOf, hb, if_neg h]
        simp only [altRuns]
        exact ⟨by simpa [runDir] using h, ih⟩

theorem runTrace_length (b : Bool) (r : List Operation) :
    (runTrace b r).length = r.length := by
  induction r with
  | nil => rfl
  | cons op rest ih => simp [runTrace, ih]

theorem runsTrace_length (address : Nat) (first : Bool) (rs : List (List Operation)) :
    (runsTrace address first rs).length = runsLen rs := by
  induction rs generalizing first with
  | nil => rfl
  | cons r rs' ih =>
    simp [runsTrace, runsLen, runTrace_length, ih]
    omega

theorem framingPrim_isFraming (first : Bool) (d : Direction) (address : Nat) :
    (framingPrim first d address).isFraming = true := by
  cases first <;> rfl

theorem opPrim_isData (b : Bool) (op : Operation) : (opPrim b op).isData = true := by
  cases op <;> rfl

theorem runTrace_mem_isData (b : Bool) (r : List Operation) :
    ∀ p ∈ runTrace b r, p.isData = true := by
  induction r with
  | nil => simp [runTrace]
  | cons op rest ih =>
    intro p hp
    simp only [runTrace, List.mem_cons] at hp
    rcases hp with rfl | hp
    · exact opPrim_isData _ _
    · exact ih p hp

/-! ## Characterization of the sequencer's primitive call stream -/
theorem Prim.isData_not_isFraming (p : Prim) (h : p.isData = true) :
    p.isFraming = false := by
  cases p <;> simp_all [Prim.isData, Prim.isFraming]

theorem st_pair_eq (a1 a2 : Nat) (t1 t2 : List Prim) (x : Option ErrorKind)
    (hn : a1 = a2) (ht : t1 = t2) :
    ((⟨a1, t1⟩ : St), x) = ((⟨a2, t2⟩ : St), x) := by
  subst hn
  subst ht
  rfl

theorem dispatchRun_ok (fail : Nat → Option ErrorKind) (isLast : Bool)
    (r : List Operation) :
    ∀ s : St, allOk fail s.n r.length →
      dispatchRun fail s isLast r =
        (⟨s.n + r.length, s.tr ++ runTrace isLast r⟩, none) := by
  induction r with
  | nil =>
    intro s h
    simp [dispatchRun, runTrace]
  | cons op rest ih =>
    intro s h
    have h0 : fail s.n = none := by
      have := h 0 (by simp)
      simpa using this
    simp only [dispatchRun, call, h0]
    have ih' := ih ⟨s.n + 1, s.tr ++ [opPrim (rest.isEmpty && isLast) op]⟩ ?hok
    case hok =>
      intro j hj
      have := h (j + 1) (by simp; omega)
      simpa [Nat.add_assoc, Nat.add_comm 1 j] using this
    dsimp only at ih'
    rw [ih']
    exact st_pair_eq _ _ _ _ _ (by simp only [List.length_cons]; omega)
      (by simp [runTrace, List.append_assoc])

theorem dispatchRun_fail (fail : Nat → Option ErrorKind) (isLast : Bool)
    (r : List Operation) :
    ∀ (s : St) (k : Nat) (e : ErrorKind), k < r.length → allOk fail s.n k →
      fail (s.n + k) = some e →
      dispatchRun fail s isLast r =
        (⟨s.n + k + 1, s.tr ++ (runTrace isLast r).take (k + 1)⟩, some e) := by
  induction r with
  | nil =>
    intro s k e hk
    exact absurd hk (by simp)
  | cons op rest ih =>
    intro s k e hk hok he
    cases k with
    | zero =>
      have h0 : fail s.n = some e := by simpa using he
      simp [dispatchRun, call, h0, runTrace]
    | succ k' =>
      have h0 : fail s.n = none := by
        have := hok 0 (by omega)
        simpa using this
      simp only [dispatchRun, call, h0]
      have ih' := ih ⟨s.n + 1, s.tr ++ [opPrim (rest.isEmpty && isLast) op]⟩ k' e
        (by simpa using hk) ?hok ?hfail
      case hok =>
        intro j hj
        have := hok (j + 1) (by omega)
        simpa [Nat.add_assoc, Nat.add_comm 1 j] using this
      case hfail =>
        have : s.n + 1 + k' = s.n + (k' + 1) := by omega
        rw [this]
        exact he
      dsimp only at ih'
      rw [ih']
      exact st_pair_eq _ _ _ _ _ (by omega)
        (by simp [runTrace, List.append_assoc, List.take_succ_cons])

theorem goRuns_ok (fail : Nat → Option ErrorKind) (address : Nat)
    (rs : List (List Operation)) :
    ∀ (s : St) (first : Bool), allOk fail s.n (runsLen rs) →
      goRuns fail address s first rs =
        (⟨s.n + runsLen rs, s.tr ++ runsTrace address first rs⟩, none) := by
  induction rs with
  | nil =>
    intro s first h
    simp [goRuns, runsTrace, runsLen]
  | cons r rs' ih =>
    intro s first h
    have h0 : fail s.n = none := by
      have := h 0 (by simp only [runsLen]; omega)
      simpa using this
    simp only [goRuns, call, h0]
    have hdis := dispatchRun_ok fail rs'.isEmpty r
      ⟨s.n + 1, s.tr ++ [framingPrim first (runDir r) address]⟩ ?hok1
    case hok1 =>
      intro j hj
      have := h (1 + j) (by simp only [runsLen]; omega)
      simpa [Nat.add_assoc] using this
    dsimp only at hdis
    rw [hdis]
    dsimp only
    have hgo := ih ⟨s.n + 1 + r.length, s.tr ++ [framingPrim first (runDir r) address] ++ runTrace rs'.isEmpty r⟩ false ?hok2
    case hok2 =>
      intro j hj
      have := h (1 + r.length + j) (by simp only [runsLen]; omega)
      simpa [Nat.add_assoc] using this
    dsimp only at hgo
    rw [hgo]
    exact st_pair_eq _ _ _ _ _ (by simp only [runsLen]; omega)
      (by simp [runsTrace, List.append_assoc])

theorem goRuns_fail (fail : Nat → Option ErrorKind) (address : Nat)
    (rs : List (List Operation)) :
    ∀ (s : St) (first : Bool) (k : Nat) (e : ErrorKind), k < runsLen rs →
      allOk fail s.n k → fail (s.n + k) = some e →
      goRuns fail address s first rs =
        if ((runsTrace address first rs).getD k Prim.stop).isFraming
        then (⟨s.n + k + 1, s.tr ++ (runsTrace address first rs).take (k + 1)⟩, some e)
        else (⟨s.n + k + 2, s.tr ++ (runsTrace address first rs).take (k + 1) ++ [Prim.stop]⟩,
          some e) := by
  induction rs with
  | nil =>
    intro s first k e hk
    exact absurd hk (by simp [runsLen])
  | cons r rs' ih =>
    intro s first k e hk hok he
    cases k with
    | zero =>
      have h0 : fail s.n = some e := by simpa using he
      simp [goRuns, call, h0, runsTrace, framingPrim_isFraming]
    | succ k' =>
      have h0 : fail s.n = none := by
        have := hok 0 (by omega)
        simpa using this
      simp only [goRuns, call, h0]
      by_cases hk' : k' < r.length
      · have hdis := dispatchRun_fail fail rs'.isEmpty r
          ⟨s.n + 1, s.tr ++ [framingPrim first (runDir r) address]⟩ k' e hk' ?hok1 ?hf1
        case hok1 =>
          intro j hj
          have := hok (j + 1) (by omega)
          simpa [Nat.add_assoc, Nat.add_comm 1 j] using this
        case hf1 =>
          dsimp only
          have harith : s.n + 1 + k' = s.n + (k' + 1) := by omega
          rw [harith]
          exact he
        dsimp only at hdis
        rw [hdis]
        dsimp only
        have hlen : k' < (runTrace rs'.isEmpty r).length := by
          rw [runTrace_length]
          exact hk'
        have hA : ((runsTrace address first (r :: rs')).getD (k' + 1) Prim.stop).isFraming
            = false := by
          have h1 : (runsTrace address first (r :: rs')).getD (k' + 1) Prim.stop
              = (runTrace rs'.isEmpty r).getD k' Prim.stop := by
            simp only [runsTrace, List.getD_cons_succ]
            rw [List.getD_eq_getElem?_getD, List.getD_eq_getElem?_getD,
              List.getElem?_append_left hlen]
          rw [h1, List.getD_eq_getElem _ _ hlen]
          exact Prim.isData_not_isFraming _ (runTrace_mem_isData _ _ _ (List.getElem_mem _))
        rw [hA]
        simp only [Bool.false_eq_true, if_false]
        have htake : (runsTrace address first (r :: rs')).take (k' + 1 + 1)
            = framingPrim first (runDir r) address :: (runTrace rs'.isEmpty r).take (k' + 1) := by
          simp only [runsTrace, List.take_succ_cons]
          rw [List.take_append_of_le_length (by rw [runTrace_length]; omega)]
        rw [htake]
        exact st_pair_eq _ _ _ _ _ (by omega) (by simp [List.append_assoc])
      · have hge : r.length ≤ k' := Nat.le_of_not_lt hk'
        have hdis := dispatchRun_ok fail rs'.isEmpty r
          ⟨s.n + 1, s.tr ++ [framingPrim first (runDir r) address]⟩ ?hok2
        case hok2 =>
          intro j hj
          have := hok (j + 1) (by omega)
          simpa [Nat.add_assoc, Nat.add_comm 1 j] using this
        dsimp only at hdis
        rw [hdis]
        dsimp only
        have hk'' : k' - r.length < runsLen rs' := by
          simp only [runsLen] at hk
          omega
        have ihh := ih ⟨s.n + 1 + r.length,
            s.tr ++ [framingPrim first (runDir r) address] ++ runTrace rs'.isEmpty r⟩
          false (k' - r.length) e hk'' ?hok3 ?hf3
        case hok3 =>
          intro j hj
          have := hok (1 + r.length + j) (by omega)
          simpa [Nat.add_assoc] using this
        case hf3 =>
          dsimp only
          have harith : s.n + 1 + r.length + (k' - r.length) = s.n + (k' + 1) := by omega
          rw [harith]
          exact he
        dsimp only at ihh
        rw [ihh]
        have hcond : (runsTrace address first (r :: rs')).getD (k' + 1) Prim.stop
            = (runsTrace address false rs').getD (k' - r.length) Prim.stop := by
          simp only [runsTrace, List.getD_cons_succ]
          rw [List.getD_eq_getElem?_getD, List.getD_eq_getElem?_getD,
            List.getElem?_append_right (by rw [runTrace_length]; omega)]
          rw [runTrace_length]
        rw [hcond]
        have htake : (runsTrace address first (r :: rs')).take (k' + 1 + 1)
            = framingPrim first (runDir r) address ::
              (runTrace rs'.isEmpty r ++ (runsTrace address false rs').take (k' - r.length + 1)) := by
          simp only [runsTrace, List.take_succ_cons]
          have harith : k' + 1 = (runTrace rs'.isEmpty r).length + (k' - r.length + 1) := by
            rw [runTrace_length]
            omega
          rw [harith, List.take_append]
        rw [htake]
        split_ifs with hb
        · exact st_pair_eq _ _ _ _ _ (by omega) (by simp [List.append_assoc])
        · exact st_pair_eq _ _ _ _ _ (by omega) (by simp [List.append_assoc])

theorem exec_ok (fail : Nat → Option ErrorKind) (address : Nat) (ops : List Operation)
    (h : ops ≠ []) (hok : allOk fail 0 (runsLen (runsOf ops) + 1)) :
    exec fail address ops = (expectedTrace address (runsOf ops), none) := by
  obtain ⟨r, rs, hrs⟩ : ∃ r rs, runsOf ops = r :: rs := by
    cases hrl : runsOf ops with
    | nil => exact absurd ((runsOf_eq_nil_iff ops).mp hrl) h
    | cons r rs => exact ⟨r, rs, rfl⟩
  rw [hrs] at hok
  simp only [exec, hrs]
  have hgo := goRuns_ok fail address (r :: rs) ⟨0, []⟩ true ?hok1
  case hok1 =>
    intro j hj
    exact hok j (by omega)
  dsimp only at hgo
  rw [hgo]
  dsimp only [call]
  have hstop : fail (0 + runsLen (r :: rs)) = none := hok (runsLen (r :: rs)) (by omega)
  rw [hstop]
  simp [expectedTrace]

theorem exec_fail (fail : Nat → Option ErrorKind) (address : Nat) (ops : List Operation)
    (k : Nat) (e : ErrorKind) (h : ops ≠ []) (hk : k < runsLen (runsOf ops) + 1)
    (hok : allOk fail 0 k) (he : fail k = some e) :
    exec fail address ops =
      if k < runsLen (runsOf ops) then
        (if ((runsTrace address true (runsOf ops)).getD k Prim.stop).isFraming
         then ((runsTrace address true (runsOf ops)).take (k + 1), some e)
         else ((runsTrace address true (runsOf ops)).take (k + 1) ++ [Prim.stop], some e))
      else (expectedTrace address (runsOf ops), some e) := by
  obtain ⟨r, rs, hrs⟩ : ∃ r rs, runsOf ops = r :: rs := by
    cases hrl : runsOf ops with
    | nil => exact absurd ((runsOf_eq_nil_iff ops).mp hrl) h
    | cons r rs => exact ⟨r, rs, rfl⟩
  rw [hrs] at hk
  simp only [exec, hrs]
  by_cases hlt : k < runsLen (r :: rs)
  · have hgo := goRuns_fail fail address (r :: rs) ⟨0, []⟩ true k e hlt ?hok1 ?hf1
    case hok1 =>
      intro j hj
      exact hok j hj
    case hf1 =>
      show fail (0 + k) = some e
      rw [Nat.zero_add]
      exact he
    dsimp only at hgo
    rw [hgo]
    rw [if_pos hlt]
    by_cases hC : ((runsTrace address true (r :: rs)).getD k Prim.stop).isFraming = true
    · simp only [List.getD_eq_getElem?_getD] at hC
      simp [hC]
    · simp only [Bool.not_eq_true] at hC
      simp only [List.getD_eq_getElem?_getD] at hC
      simp [hC]
  · have hke : k = runsLen (r :: rs) := by omega
    have hgo := goRuns_ok fail address (r :: rs) ⟨0, []⟩ true ?hok2
    case hok2 =>
      intro j hj
      exact hok j (by omega)
    dsimp only at hgo
    rw [hgo]
    dsimp only [call]
    have hstop : fail (0 + runsLen (r :: rs)) = some e := by
      rw [Nat.zero_add, ← hke]
      exact he
    rw [hstop]
    rw [if_neg hlt]
    simp [expectedTrace]

theorem runTrace_countP_zero (p : Prim → Bool) (hp : ∀ q : Prim, q.isData = true → p q = false)
    (b : Bool) (r : List Operation) : (runTrace b r).countP p = 0 := by
  rw [List.countP_eq_zero]
  intro a ha
  simp [hp a (runTrace_mem_isData b r a ha)]

theorem countBegin_runsTrace_false (address : Nat) (rs : List (List Operation)) :
    countBegin (runsTrace address false rs) = 0 := by
  induction rs with
  | nil => rfl
  | cons r rs' ih =>
    simp only [countBegin, runsTrace, List.countP_cons, List.countP_append] at ih ⊢
    have hr : (runTrace rs'.isEmpty r).countP Prim.isBegin = 0 :=
      runTrace_countP_zero _ (fun q hq => by cases q <;> simp_all [Prim.isData, Prim.isBegin]) _ _
    simp [framingPrim, Prim.isBegin, hr, ih]

theorem countContinue_runsTrace_false (address : Nat) (rs : List (List Operation)) :
    countContinue (runsTrace address false rs) = rs.length := by
  induction rs with
  | nil => rfl
  | cons r rs' ih =>
    simp only [countContinue, runsTrace, List.countP_cons, List.countP_append] at ih ⊢
    have hr : (runTrace rs'.isEmpty r).countP Prim.isContinue = 0 :=
      runTrace_countP_zero _ (fun q hq => by cases q <;> simp_all [Prim.isData, Prim.isContinue]) _ _
    simp [framingPrim, Prim.isContinue, hr, ih]

theorem countStop_runsTrace (address : Nat) (first : Bool) (rs : List (List Operation)) :
    countStop (runsTrace address first rs) = 0 := by
  induction rs generalizing first with
  | nil => rfl
  | cons r rs' ih =>
    simp only [countStop, runsTrace, List.countP_cons, List.countP_append] at ih ⊢
    have hr : (runTrace rs'.isEmpty r).countP Prim.isStop = 0 :=
      runTrace_countP_zero _ (fun q hq => by cases q <;> simp_all [Prim.isData, Prim.isStop]) _ _
    have hf : (framingPrim first (runDir r) address).isStop = false := by
      cases first <;> rfl
    rw [hr, ih false, hf]
    simp

theorem counts_expectedTrace (address : Nat) (r : List Operation) (rs : List (List Operation)) :
    countBegin (expectedTrace address (r :: rs)) = 1 ∧
    countContinue (expectedTrace address (r :: rs)) = rs.length ∧
    countStop (expectedTrace address (r :: rs)) = 1 := by
  have hbf := countBegin_runsTrace_false address rs
  have hcf := countContinue_runsTrace_false address rs
  have hsf := countStop_runsTrace address false rs
  simp only [countBegin, countContinue, countStop] at hbf hcf hsf
  have hrB : (runTrace rs.isEmpty r).countP Prim.isBegin = 0 :=
    runTrace_countP_zero _ (fun q hq => by cases q <;> simp_all [Prim.isData, Prim.isBegin]) _ _
  have hrC : (runTrace rs.isEmpty r).countP Prim.isContinue = 0 :=
    runTrace_countP_zero _ (fun q hq => by cases q <;> simp_all [Prim.isData, Prim.isContinue]) _ _
  have hrS : (runTrace rs.isEmpty r).countP Prim.isStop = 0 :=
    runTrace_countP_zero _ (fun q hq => by cases q <;> simp_all [Prim.isData, Prim.isStop]) _ _
  refine ⟨?_, ?_, ?_⟩
  · simp only [countBegin, expectedTrace, runsTrace, List.countP_append, List.countP_cons]
    rw [hrB, hbf]
    simp [framingPrim, Prim.isBegin]
  · simp only [countContinue, expectedTrace, runsTrace, List.countP_append, List.countP_cons]
    rw [hrC, hcf]
    simp [framingPrim, Prim.isContinue]
  · simp only [countStop, expectedTrace, runsTrace, List.countP_append, List.countP_cons]
    rw [hrS, hsf]
    simp [framingPrim, Prim.isStop]

theorem receiveFlag?_framingPrim (first : Bool) (d : Direction) (address : Nat) :
    receiveFlag? (framingPrim first d address) = none := by
  cases first <;> rfl

theorem receiveFlags_runTrace_false (r : List Operation) :
    ∀ x ∈ receiveFlags (runTrace false r), x = false := by
  induction r with
  | nil => simp [runTrace, receiveFlags]
  | cons op rest ih =>
    intro x hx
    simp only [runTrace, receiveFlags, List.filterMap_cons, Bool.and_false] at hx
    cases op with
    | Read len =>
      simp only [opPrim, receiveFlag?] at hx
      rcases List.mem_cons.mp hx with rfl | hx'
      · rfl
      · exact ih x hx'
    | Write bytes =>
      simp only [opPrim, receiveFlag?] at hx
      exact ih x hx

theorem receiveFlags_runTrace_true (r : List Operation) :
    ((∃ n, r.getLast? = some (Operation.Read n)) ∧
      receiveFlags (runTrace true r) =
        List.replicate ((receiveFlags (runTrace true r)).length - 1) false ++ [true]) ∨
    ((¬ ∃ n, r.getLast? = some (Operation.Read n)) ∧
      receiveFlags (runTrace true r) =
        List.replicate (receiveFlags (runTrace true r)).length false) := by
  induction r with
  | nil =>
    right
    simp [runTrace, receiveFlags]
  | cons op rest ih =>
    cases rest with
    | nil =>
      cases op with
      | Read len =>
        left
        simp [runTrace, receiveFlags, opPrim, receiveFlag?]
      | Write bytes =>
        right
        simp [runTrace, receiveFlags, opPrim, receiveFlag?]
    | cons op2 rest' =>
      have hflags : receiveFlags (runTrace true (op :: op2 :: rest')) =
          (receiveFlag? (opPrim false op)).toList ++ receiveFlags (runTrace true (op2 :: rest')) := by
        simp [runTrace, receiveFlags, List.filterMap_cons, List.isEmpty_cons]
        cases op <;> simp [opPrim, receiveFlag?]
      have hlast : (op :: op2 :: rest').getLast? = (op2 :: rest').getLast? :=
        List.getLast?_cons_cons
      cases op with
      | Write bytes =>
        have hfl0 : (receiveFlag? (opPrim false (Operation.Write bytes))).toList = [] := rfl
        rw [hflags, hfl0, List.nil_append, hlast]
        exact ih
      | Read len =>
        have hfl0 : (receiveFlag? (opPrim false (Operation.Read len))).toList = [false] := rfl
        rw [hflags, hfl0, hlast]
        rcases ih with ⟨hex, hfl⟩ | ⟨hex, hfl⟩
        · left
          refine ⟨hex, ?_⟩
          have hge : 1 ≤ (receiveFlags (runTrace true (op2 :: rest'))).length := by
            rw [hfl]
            simp
          rw [List.singleton_append, List.length_cons]
          have harith : (receiveFlags (runTrace true (op2 :: rest'))).length + 1 - 1
              = ((receiveFlags (runTrace true (op2 :: rest'))).length - 1) + 1 := by omega
          rw [harith, List.replicate_succ, List.cons_append]
          rw [← hfl]
        · right
          refine ⟨hex, ?_⟩
          rw [List.singleton_append, List.length_cons, List.replicate_succ]
          rw [← hfl]

theorem receiveFlags_runsTrace_first (address : Nat) (rs : List (List Operation))
    (f1 f2 : Bool) :
    receiveFlags (runsTrace address f1 rs) = receiveFlags (runsTrace address f2 rs) := by
  cases rs with
  | nil => rfl
  | cons r rs' =>
    simp only [runsTrace, receiveFlags, List.filterMap_cons,
      receiveFlag?_framingPrim]

theorem flatten_ne_nil (rs : List (List Operation)) (h : rs ≠ [])
    (hne : ∀ r ∈ rs, r ≠ []) : rs.flatten ≠ [] := by
  cases rs with
  | nil => exact absurd rfl h
  | cons r rs' =>
    have hr : r ≠ [] := hne r (by simp)
    simp [List.flatten_cons]
    intro hc
    exact absurd hc hr

theorem receiveFlags_runsTrace (address : Nat) (rs : List (List Operation)) :
    rs ≠ [] → (∀ r ∈ rs, r ≠ []) →
    ((∃ n, rs.flatten.getLast? = some (Operation.Read n)) ∧
      receiveFlags (runsTrace address true rs) =
        List.replicate ((receiveFlags (runsTrace address true rs)).length - 1) false ++ [true]) ∨
    ((¬ ∃ n, rs.flatten.getLast? = some (Operation.Read n)) ∧
      receiveFlags (runsTrace address true rs) =
        List.replicate (receiveFlags (runsTrace address true rs)).length false) := by
  induction rs with
  | nil => intro h; exact absurd rfl h
  | cons r rs' ih =>
    intro _ hne
    cases rs' with
    | nil =>
      have hfl : receiveFlags (runsTrace address true [r]) = receiveFlags (runTrace true r) := by
        simp [runsTrace, receiveFlags, List.filterMap_cons, receiveFlag?_framingPrim,
          List.isEmpty_nil]
      have hflat : ([r] : List (List Operation)).flatten = r := by simp
      rw [hfl, hflat]
      exact receiveFlags_runTrace_true r
    | cons r2 rs'' =>
      have hfl : receiveFlags (runsTrace address true (r :: r2 :: rs'')) =
          receiveFlags (runTrace false r) ++ receiveFlags (runsTrace address true (r2 :: rs'')) := by
        have h1 : receiveFlags (runsTrace address false (r2 :: rs''))
            = receiveFlags (runsTrace address true (r2 :: rs'')) :=
          receiveFlags_runsTrace_first address (r2 :: rs'') false true
        simp only [runsTrace, List.isEmpty_cons, receiveFlags, List.filterMap_cons,
          receiveFlag?_framingPrim, List.filterMap_append] at h1 ⊢
      have hF : receiveFlags (runTrace false r) =
          List.replicate (receiveFlags (runTrace false r)).length false :=
        List.eq_replicate_of_mem (receiveFlags_runTrace_false r)
      have hflat : (r :: r2 :: rs'').flatten.getLast? = (r2 :: rs'').flatten.getLast? := by
        rw [List.flatten_cons]
        exact List.getLast?_append_of_ne_nil _
          (flatten_ne_nil (r2 :: rs'') (by simp) (fun q hq => hne q (by simp [hq])))
      have ih' := ih (by simp) (fun q hq => hne q (by simp [hq]))
      rw [hfl, hflat]
      rcases ih' with ⟨hex, hrest⟩ | ⟨hex, hrest⟩
      · left
        refine ⟨hex, ?_⟩
        have hge : 1 ≤ (receiveFlags (runsTrace address true (r2 :: rs''))).length := by
          rw [hrest]
          simp
        rw [List.length_append]
        conv =>
          lhs
          rw [hF, hrest]
        rw [← List.append_assoc, ← List.replicate_add]
        have harith : (receiveFlags (runTrace false r)).length +
            ((receiveFlags (runsTrace address true (r2 :: rs''))).length - 1)
            = (receiveFlags (runTrace false r)).length +
              (receiveFlags (runsTrace address true (r2 :: rs''))).length - 1 := by omega
        rw [harith]
      · right
        refine ⟨hex, ?_⟩
        rw [List.length_append]
        conv =>
          lhs
          rw [hF, hrest]
        rw [← List.replicate_add]

theorem transferDrain_spec {W : Type} (inc : Nat → W) :
    ∀ (i : Nat) (ws : List W), transferDrain inc i ws = ([], ws) := by
  intro i ws
  induction ws generalizing i with
  | nil => rfl
  | cons w ws' ih => simp [transferDrain, ih]

theorem transferGo_spec {W : Type} (inc : Nat → W) (filler : W) :
    ∀ (m i : Nat) (ws : List W),
      transferGo inc filler i m ws =
        ((List.range' i m).map inc, ws ++ List.replicate (m - ws.length) filler) := by
  intro m
  induction m with
  | zero =>
    intro i ws
    simp [transferGo, transferDrain_spec]
  | succ m' ih =>
    intro i ws
    cases ws with
    | nil =>
      have h : List.range' i (m' + 1) = i :: List.range' (i + 1) m' := rfl
      simp [transferGo, ih (i + 1) [], h, List.replicate_succ]
    | cons w ws' =>
      have h : List.range' i (m' + 1) = i :: List.range' (i + 1) m' := rfl
      simp [transferGo, ih (i + 1) ws', h]

/-! ## Claim theorems -/
/-- C1: for every non-empty transaction in which no primitive call fails, the
sequencer's backend trace is exactly `expectedTrace`: one `begin`, one
`continue_with` per run after the first (K−1 for K maximal same-direction
runs) and one closing `end()`, in that order, interleaved with the
`send`/`receive` calls of each run's operations; runs are direction-uniform
and adjacent runs change direction, so a repeated start is emitted only at a
direction change and never between two adjacent same-direction operations. -/
theorem exec_framing_per_run (address : Nat) (ops : List Operation) (h : ops ≠ []) :
    exec (fun _ => none) address ops = (expectedTrace address (runsOf ops), none) ∧
    countBegin (expectedTrace address (runsOf ops)) = 1 ∧
    countContinue (expectedTrace address (runsOf ops)) = (runsOf ops).length - 1 ∧
    countStop (expectedTrace address (runsOf ops)) = 1 ∧
    altRuns (runsOf ops) ∧
    (∀ r ∈ runsOf ops, uniformRun r ∧ r ≠ []) ∧
    (runsOf ops).flatten = ops := by
  obtain ⟨r, rs, hrs⟩ : ∃ r rs, runsOf ops = r :: rs := by
    cases hrl : runsOf ops with
    | nil => exact absurd ((runsOf_eq_nil_iff ops).mp hrl) h
    | cons r rs => exact ⟨r, rs, rfl⟩
  refine ⟨exec_ok _ _ _ h (fun j hj => rfl), ?_, ?_, ?_, runsOf_alt ops,
    fun q hq => ⟨runsOf_uniform ops q hq, runsOf_ne_nil ops q hq⟩, runsOf_join ops⟩
  · rw [hrs]
    exact (counts_expectedTrace address r rs).1
  · rw [hrs]
    have hc := (counts_expectedTrace address r rs).2.1
    simpa using hc
  · rw [hrs]
    exact (counts_expectedTrace address r rs).2.2

/-- Witness for C1 at the concrete two-run transaction [Write [1], Read 2]. -/
theorem exec_framing_per_run_witness :
    ([Operation.Write [1], Operation.Read 2] ≠ ([] : List Operation)) ∧
    (exec (fun _ => none) 7 [Operation.Write [1], Operation.Read 2]
        = (expectedTrace 7 (runsOf [Operation.Write [1], Operation.Read 2]), none) ∧
      countBegin (expectedTrace 7 (runsOf [Operation.Write [1], Operation.Read 2])) = 1 ∧
      countContinue (expectedTrace 7 (runsOf [Operation.Write [1], Operation.Read 2]))
        = (runsOf [Operation.Write [1], Operation.Read 2]).length - 1 ∧
      countStop (expectedTrace 7 (runsOf [Operation.Write [1], Operation.Read 2])) = 1 ∧
      altRuns (runsOf [Operation.Write [1], Operation.Read 2]) ∧
      (∀ r ∈ runsOf [Operation.Write [1], Operation.Read 2], uniformRun r ∧ r ≠ []) ∧
      (runsOf [Operation.Write [1], Operation.Read 2]).flatten
        = [Operation.Write [1], Operation.Read 2]) :=
  ⟨by decide, exec_framing_per_run 7 [Operation.Write [1], Operation.Read 2] (by decide)⟩

/-- C2: `write_read` (the facade's `write_then_read`) issues, under any backend
behaviour, exactly the primitive call sequence of the two-operation transaction
[Write bytes, Read len]; with no failure that sequence is begin-for-write,
send, exactly one repeated start (`continue_with` for read), the receive with
`last_byte_no_ack = true`, and `end()`. -/
theorem write_read_eq_exec (fail : Nat → Option ErrorKind) (address : Nat)
    (bytes : List Nat) (len : Nat) :
    write_read fail address bytes len
      = exec fail address [Operation.Write bytes, Operation.Read len] ∧
    exec (fun _ => none) address [Operation.Write bytes, Operation.Read len]
      = ([Prim.begin .write address, Prim.send bytes, Prim.continueWith .read address,
          Prim.receive len true, Prim.stop], none) := by
  refine ⟨rfl, ?_⟩
  have hx := exec_ok (fun _ => none) address [Operation.Write bytes, Operation.Read len]
    (by simp) (fun j hj => rfl)
  rw [hx]
  rfl

/-- C3: in a successful transaction, every receive call carries
`last_byte_no_ack = false`, except that when the transaction's final operation
is a Read, the final receive call — the one covering that operation's last
byte — carries `true`; when the final operation is a Write all receive calls
carry `false`. -/
theorem exec_last_byte_no_ack (address : Nat) (ops : List Operation) (h : ops ≠ []) :
    ((∃ n, ops.getLast? = some (Operation.Read n)) ∧
      receiveFlags (exec (fun _ => none) address ops).1 =
        List.replicate ((receiveFlags (exec (fun _ => none) address ops).1).length - 1)
          false ++ [true]) ∨
    ((¬ ∃ n, ops.getLast? = some (Operation.Read n)) ∧
      receiveFlags (exec (fun _ => none) address ops).1 =
        List.replicate (receiveFlags (exec (fun _ => none) address ops).1).length false) := by
  have hex := exec_ok (fun _ => none) address ops h (fun j hj => rfl)
  have h1 : (exec (fun _ => none) address ops).1 = expectedTrace address (runsOf ops) := by
    rw [hex]
  have hfl : receiveFlags (expectedTrace address (runsOf ops)) =
      receiveFlags (runsTrace address true (runsOf ops)) := by
    simp [expectedTrace, receiveFlags, List.filterMap_append, receiveFlag?]
  rw [h1, hfl]
  have hmain := receiveFlags_runsTrace address (runsOf ops)
    (by rw [ne_eq, runsOf_eq_nil_iff]; exact h) (runsOf_ne_nil ops)
  rw [runsOf_join] at hmain
  exact hmain

/-- Witness for C3 at the concrete transaction [Write [1], Read 3] (the spec's
§8.4 example): flags are [false, false, true] pattern collapsed to one
per-operation receive with the no-ack flag on the final Read. -/
theorem exec_last_byte_no_ack_witness :
    ([Operation.Write [1], Operation.Read 3] ≠ ([] : List Operation)) ∧
    (((∃ n, [Operation.Write [1], Operation.Read 3].getLast? = some (Operation.Read n)) ∧
      receiveFlags (exec (fun _ => none) 2 [Operation.Write [1], Operation.Read 3]).1 =
        List.replicate
          ((receiveFlags (exec (fun _ => none) 2 [Operation.Write [1], Operation.Read 3]).1).length - 1)
          false ++ [true]) ∨
    ((¬ ∃ n, [Operation.Write [1], Operation.Read 3].getLast? = some (Operation.Read n)) ∧
      receiveFlags (exec (fun _ => none) 2 [Operation.Write [1], Operation.Read 3]).1 =
        List.replicate
          (receiveFlags (exec (fun _ => none) 2 [Operation.Write [1], Operation.Read 3]).1).length
          false)) :=
  ⟨by decide, exec_last_byte_no_ack 2 [Operation.Write [1], Operation.Read 3] (by decide)⟩

theorem expectedTrace_length (address : Nat) (runs : List (List Operation)) :
    (expectedTrace address runs).length = runsLen runs + 1 := by
  simp [expectedTrace, runsTrace_length]

theorem Prim.isFraming_not_isData (p : Prim) (h : p.isFraming = true) :
    p.isData = false := by
  cases p <;> simp_all [Prim.isFraming, Prim.isData]

theorem runsTrace_mem_framing_or_data (address : Nat) (first : Bool)
    (rs : List (List Operation)) :
    ∀ p ∈ runsTrace address first rs, p.isFraming = true ∨ p.isData = true := by
  induction rs generalizing first with
  | nil => simp [runsTrace]
  | cons r rs' ih =>
    intro p hp
    simp only [runsTrace, List.mem_cons, List.mem_append] at hp
    rcases hp with rfl | hp | hp
    · exact Or.inl (framingPrim_isFraming first (runDir r) address)
    · exact Or.inr (runTrace_mem_isData _ _ _ hp)
    · exact ih false p hp

theorem get_eq_getD (l : List Prim) (n : Nat) (hn : n < l.length) :
    l.get ⟨n, hn⟩ = l.getD n Prim.stop := by
  rw [List.getD_eq_getElem _ _ hn]
  rfl

theorem getD_take (l : List Prim) (n i : Nat) (hi : i < n) :
    (l.take n).getD i Prim.stop = l.getD i Prim.stop := by
  rw [List.getD_eq_getElem?_getD, List.getD_eq_getElem?_getD,
    List.getElem?_take_of_lt hi]

theorem getD_mem (l : List Prim) (n : Nat) (hn : n < l.length) :
    l.getD n Prim.stop ∈ l := by
  rw [List.getD_eq_getElem _ _ hn]
  exact List.getElem_mem _

/-- C4: with a backend whose i-th call outcome is `fail i`, a failing
transaction pinpoints a first failing call N: the error returned is exactly
`fail N`, calls before N all succeeded, the issued calls are the expected
prefix up to N, and no call after N is issued except the closing `end()`,
which is issued exactly when the failing call was a data call (a failing
`begin`/`continue_with` aborts with no `end()`; a failing `end()` is itself
last); a transaction returning success had every issued call succeed — there
is no partial-success shape. -/
theorem exec_first_error (fail : Nat → Option ErrorKind) (address : Nat)
    (ops : List Operation) (tr : List Prim) (res : Option ErrorKind)
    (h : ops ≠ []) (he : exec fail address ops = (tr, res)) :
    (res = none → ∀ i, i < tr.length → fail i = none) ∧
    (∀ e, res = some e →
      ∃ N, ∃ hN : N < tr.length, fail N = some e ∧ (∀ i, i < N → fail i = none) ∧
        tr.take (N + 1) = (expectedTrace address (runsOf ops)).take (N + 1) ∧
        (tr.length = N + 1 ∨ (tr.length = N + 2 ∧ tr.getLast? = some Prim.stop)) ∧
        ((tr.get ⟨N, hN⟩).isFraming = true → tr.length = N + 1) ∧
        ((tr.get ⟨N, hN⟩).isData = true →
          tr.length = N + 2 ∧ tr.getLast? = some Prim.stop) ∧
        (tr.get ⟨N, hN⟩ = Prim.stop → tr.length = N + 1)) := by
  by_cases hall : ∀ i, i < runsLen (runsOf ops) + 1 → fail i = none
  · have hx := exec_ok fail address ops h (fun j hj => by
      rw [Nat.zero_add]
      exact hall j hj)
    rw [he] at hx
    rw [Prod.mk.injEq] at hx
    obtain ⟨htr, hres⟩ := hx
    subst htr
    subst hres
    constructor
    · intro _ i hi
      rw [expectedTrace_length] at hi
      exact hall i hi
    · intro e hcon
      exact absurd hcon (by simp)
  · push_neg at hall
    have hP : ∃ i, i < runsLen (runsOf ops) + 1 ∧ fail i ≠ none := hall
    obtain ⟨hNlt, hNne⟩ := Nat.find_spec hP
    have hmin : ∀ i, i < Nat.find hP → fail i = none := by
      intro i hi
      have hnp := Nat.find_min hP hi
      have hiL : i < runsLen (runsOf ops) + 1 := by omega
      by_contra hne
      exact hnp ⟨hiL, hne⟩
    have hok : allOk fail 0 (Nat.find hP) := by
      intro j hj
      rw [Nat.zero_add]
      exact hmin j hj
    obtain ⟨e0, he0⟩ : ∃ e0, fail (Nat.find hP) = some e0 := by
      cases hfe : fail (Nat.find hP) with
      | none => exact absurd hfe hNne
      | some x => exact ⟨x, rfl⟩
    have hx := exec_fail fail address ops (Nat.find hP) e0 h hNlt hok he0
    by_cases hlt : Nat.find hP < runsLen (runsOf ops)
    · rw [if_pos hlt] at hx
      have hTlen : (runsTrace address true (runsOf ops)).length = runsLen (runsOf ops) :=
        runsTrace_length address true (runsOf ops)
      have hNT : Nat.find hP < (runsTrace address true (runsOf ops)).length := by omega
      have htakeE : (expectedTrace address (runsOf ops)).take (Nat.find hP + 1)
          = (runsTrace address true (runsOf ops)).take (Nat.find hP + 1) := by
        simp only [expectedTrace]
        rw [List.take_append_of_le_length (by omega)]
      by_cases hfr : ((runsTrace address true (runsOf ops)).getD (Nat.find hP)
          Prim.stop).isFraming = true
      · rw [if_pos hfr] at hx
        rw [he] at hx
        rw [Prod.mk.injEq] at hx
        obtain ⟨htr, hres⟩ := hx
        subst htr
        have htrlen : ((runsTrace address true (runsOf ops)).take (Nat.find hP + 1)).length
            = Nat.find hP + 1 := by
          rw [List.length_take]
          omega
        have hN : Nat.find hP
            < ((runsTrace address true (runsOf ops)).take (Nat.find hP + 1)).length := by
          omega
        have hgetT : ((runsTrace address true (runsOf ops)).take (Nat.find hP + 1)).get
            ⟨Nat.find hP, hN⟩ = (runsTrace address true (runsOf ops)).getD (Nat.find hP)
              Prim.stop := by
          rw [get_eq_getD]
          exact getD_take _ _ _ (by omega)
        constructor
        · intro hcon
          rw [hres] at hcon
          exact absurd hcon (by simp)
        · intro e hecon
          rw [hres] at hecon
          have hee : e = e0 := (Option.some.inj hecon).symm
          refine ⟨Nat.find hP, hN, ?_, hmin, ?_, Or.inl htrlen, fun _ => htrlen, ?_,
            fun _ => htrlen⟩
          · rw [hee]
            exact he0
          · rw [htakeE, List.take_take, Nat.min_self]
          · intro hd
            rw [hgetT] at hd
            rw [Prim.isFraming_not_isData _ hfr] at hd
            exact absurd hd (by simp)
      · rw [if_neg hfr] at hx
        rw [he] at hx
        rw [Prod.mk.injEq] at hx
        obtain ⟨htr, hres⟩ := hx
        subst htr
        have htklen : ((runsTrace address true (runsOf ops)).take (Nat.find hP + 1)).length
            = Nat.find hP + 1 := by
          rw [List.length_take]
          omega
        have htrlen : ((runsTrace address true (runsOf ops)).take (Nat.find hP + 1)
            ++ [Prim.stop]).length = Nat.find hP + 2 := by
          rw [List.length_append, htklen]
          rfl
        have hN : Nat.find hP < ((runsTrace address true (runsOf ops)).take (Nat.find hP + 1)
            ++ [Prim.stop]).length := by
          omega
        have h1 : Nat.find hP
            < ((runsTrace address true (runsOf ops)).take (Nat.find hP + 1)).length := by
          omega
        have hgetB : ((runsTrace address true (runsOf ops)).take (Nat.find hP + 1)
            ++ [Prim.stop]).get ⟨Nat.find hP, hN⟩
            = (runsTrace address true (runsOf ops)).getD (Nat.find hP) Prim.stop := by
          rw [List.get_append (Nat.find hP) h1, get_eq_getD]
          exact getD_take _ _ _ (by omega)
        have hdata : ((runsTrace address true (runsOf ops)).getD (Nat.find hP)
            Prim.stop).isData = true := by
          rcases runsTrace_mem_framing_or_data address true (runsOf ops) _
              (getD_mem _ _ hNT) with hc | hc
          · exact absurd hc hfr
          · exact hc
        have hlast : ((runsTrace address true (runsOf ops)).take (Nat.find hP + 1)
            ++ [Prim.stop]).getLast? = some Prim.stop := List.getLast?_concat _
        constructor
        · intro hcon
          rw [hres] at hcon
          exact absurd hcon (by simp)
        · intro e hecon
          rw [hres] at hecon
          have hee : e = e0 := (Option.some.inj hecon).symm
          refine ⟨Nat.find hP, hN, ?_, hmin, ?_, Or.inr ⟨htrlen, hlast⟩, ?_,
            fun _ => ⟨htrlen, hlast⟩, ?_⟩
          · rw [hee]
            exact he0
          · rw [htakeE, List.take_append_of_le_length (by omega), List.take_take,
              Nat.min_self]
          · intro hf
            rw [hgetB] at hf
            rw [Prim.isData_not_isFraming _ hdata] at hf
            exact absurd hf (by simp)
          · intro hs
            rw [hgetB] at hs
            rw [hs] at hdata
            exact absurd hdata (by decide)
    · have hNeq : Nat.find hP = runsLen (runsOf ops) := by omega
      rw [if_neg hlt] at hx
      rw [he] at hx
      rw [Prod.mk.injEq] at hx
      obtain ⟨htr, hres⟩ := hx
      subst htr
      have hlen : (expectedTrace address (runsOf ops)).length = Nat.find hP + 1 := by
        rw [expectedTrace_length, hNeq]
      have hN : Nat.find hP < (expectedTrace address (runsOf ops)).length := by
        omega
      have hgetC : (expectedTrace address (runsOf ops)).get ⟨Nat.find hP, hN⟩
          = Prim.stop := by
        rw [get_eq_getD]
        simp only [expectedTrace]
        rw [List.getD_eq_getElem?_getD,
          List.getElem?_append_right (by rw [runsTrace_length]; omega)]
        simp [runsTrace_length, hNeq]
      constructor
      · intro hcon
        rw [hres] at hcon
        exact absurd hcon (by simp)
      · intro e hecon
        rw [hres] at hecon
        have hee : e = e0 := (Option.some.inj hecon).symm
        refine ⟨Nat.find hP, hN, ?_, hmin, rfl, Or.inl hlen, fun _ => hlen, ?_,
          fun _ => hlen⟩
        · rw [hee]
          exact he0
        · intro hd
          rw [hgetC] at hd
          exact absurd hd (by decide)

/-- Witness for C4: the backend fails call 1 (the `send`); the sequencer issues
begin, the failing send, then only the closing `end()`, and returns that error. -/
theorem exec_first_error_witness :
    (([Operation.Write [1], Operation.Read 1] : List Operation) ≠ []) ∧
    exec failAtSend 0 [Operation.Write [1], Operation.Read 1]
      = ([Prim.begin Direction.write 0, Prim.send [1], Prim.stop], some ErrorKind.Bus) ∧
    (((exec failAtSend 0 [Operation.Write [1], Operation.Read 1]).2 = none →
        ∀ i, i < (exec failAtSend 0 [Operation.Write [1], Operation.Read 1]).1.length →
          failAtSend i = none) ∧
      (∀ e, (exec failAtSend 0 [Operation.Write [1], Operation.Read 1]).2 = some e →
        ∃ N, ∃ hN : N < (exec failAtSend 0 [Operation.Write [1], Operation.Read 1]).1.length,
          failAtSend N = some e ∧ (∀ i, i < N → failAtSend i = none) ∧
          (exec failAtSend 0 [Operation.Write [1], Operation.Read 1]).1.take (N + 1)
            = (expectedTrace 0 (runsOf [Operation.Write [1], Operation.Read 1])).take (N + 1) ∧
          ((exec failAtSend 0 [Operation.Write [1], Operation.Read 1]).1.length = N + 1 ∨
            ((exec failAtSend 0 [Operation.Write [1], Operation.Read 1]).1.length = N + 2 ∧
              (exec failAtSend 0 [Operation.Write [1], Operation.Read 1]).1.getLast?
                = some Prim.stop)) ∧
          (((exec failAtSend 0 [Operation.Write [1], Operation.Read 1]).1.get
              ⟨N, hN⟩).isFraming = true →
            (exec failAtSend 0 [Operation.Write [1], Operation.Read 1]).1.length = N + 1) ∧
          (((exec failAtSend 0 [Operation.Write [1], Operation.Read 1]).1.get
              ⟨N, hN⟩).isData = true →
            (exec failAtSend 0 [Operation.Write [1], Operation.Read 1]).1.length = N + 2 ∧
            (exec failAtSend 0 [Operation.Write [1], Operation.Read 1]).1.getLast?
              = some Prim.stop) ∧
          ((exec failAtSend 0 [Operation.Write [1], Operation.Read 1]).1.get ⟨N, hN⟩
              = Prim.stop →
            (exec failAtSend 0 [Operation.Write [1], Operation.Read 1]).1.length = N + 1))) :=
  ⟨by decide, by decide,
    exec_first_error failAtSend 0 [Operation.Write [1], Operation.Read 1]
      (exec failAtSend 0 [Operation.Write [1], Operation.Read 1]).1
      (exec failAtSend 0 [Operation.Write [1], Operation.Read 1]).2 (by decide) rfl⟩

/-- C5: the empty transaction issues zero primitive calls and fails with an
error whose normalized kind is `Other`, for every backend. -/
theorem exec_empty (fail : Nat → Option ErrorKind) (address : Nat) :
    exec fail address [] = ([], some ErrorKind.Other) ∧
    ErrorKind.Other.kind = ErrorKind.Other :=
  ⟨rfl, rfl⟩

/-- C6: every implementation-specific error value normalizes into the closed
five-member `ErrorKind` set, the NACK source is one of the closed three-member
`NoAcknowledgeSource` set, and `ErrorKind`'s own normalization is the
identity, so generic code may match these sets exhaustively. -/
theorem errorKind_closed {E : Type} (inst : Error E) (err : E)
    (s : NoAcknowledgeSource) :
    (inst.kind err = ErrorKind.Bus ∨ inst.kind err = ErrorKind.ArbitrationLoss ∨
      (∃ src, inst.kind err = ErrorKind.NoAcknowledge src) ∨
      inst.kind err = ErrorKind.Overrun ∨ inst.kind err = ErrorKind.Other) ∧
    (s = NoAcknowledgeSource.Address ∨ s = NoAcknowledgeSource.Data ∨
      s = NoAcknowledgeSource.Unknown) ∧
    (∀ e : ErrorKind, e.kind = e) := by
  refine ⟨?_, ?_, fun e => rfl⟩
  · cases hk : inst.kind err with
    | Bus => exact Or.inl rfl
    | ArbitrationLoss => exact Or.inr (Or.inl rfl)
    | NoAcknowledge src => exact Or.inr (Or.inr (Or.inl ⟨src, rfl⟩))
    | Overrun => exact Or.inr (Or.inr (Or.inr (Or.inl rfl)))
    | Other => exact Or.inr (Or.inr (Or.inr (Or.inr rfl)))
  · cases s with
    | Address => exact Or.inl rfl
    | Data => exact Or.inr (Or.inl rfl)
    | Unknown => exact Or.inr (Or.inr rfl)

/-- C7 counterexample: 128 is a representable `SevenBitAddress` (`u8`) value,
yet it is not below 128 — the claimed 7-bit range invariant (address value
< 128 in 7-bit mode) is not enforced by the carrier type. -/
theorem sevenBit_range_not_enforced :
    ∃ a : SevenBitAddress, ¬ (a.val < 128) :=
  ⟨⟨128, by decide⟩, by decide⟩

/-- C7 amended: the address mode is a closed two-variant capability; a 7-bit
mode address is carried in an 8-bit value (< 256) and a 10-bit mode address in
a 16-bit value (< 65536); every address with at most 7 (resp. 10) significant
bits is representable in its mode's carrier, but the carrier admits any 8-bit
(resp. 16-bit) value, so the < 128 / < 1024 bound is a caller obligation, not
a type-enforced invariant. -/
theorem addressMode_carriers (m : AddressMode) (a7 : SevenBitAddress)
    (a10 : TenBitAddress) (n7 n10 : Nat) (h7 : n7 < 128) (h10 : n10 < 1024) :
    (m = AddressMode.SevenBit ∨ m = AddressMode.TenBit) ∧
    a7.val < 256 ∧ a10.val < 65536 ∧ n7 < 256 ∧ n10 < 65536 := by
  refine ⟨?_, a7.isLt, a10.isLt, by omega, by omega⟩
  cases m with
  | SevenBit => exact Or.inl rfl
  | TenBit => exact Or.inr rfl

/-- Witness for the amended C7 at mode `SevenBit`, addresses 77 (7-bit carrier)
and 600 (10-bit carrier). -/
theorem addressMode_carriers_witness :
    (77 < 128 ∧ 600 < 1024) ∧
    ((AddressMode.SevenBit = AddressMode.SevenBit ∨
        AddressMode.SevenBit = AddressMode.TenBit) ∧
      (⟨77, by decide⟩ : SevenBitAddress).val < 256 ∧
      (⟨600, by decide⟩ : TenBitAddress).val < 65536 ∧ 77 < 256 ∧ 600 < 65536) :=
  ⟨by decide, addressMode_carriers AddressMode.SevenBit ⟨77, by decide⟩ ⟨600, by decide⟩
    77 600 (by decide) (by decide)⟩

/-- C8: a full-duplex transfer with read length `m` and write buffer `write`
transmits exactly `max m write.length` words — one per word-time — namely all
of `write` followed by implementation-chosen filler words; the read buffer
receives exactly the first `m` incoming words and every later incoming word is
discarded. -/
theorem transfer_spec {W : Type} (m : Nat) (write : List W) (inc : Nat → W)
    (filler : W) :
    transfer m write inc filler
      = ((List.range m).map inc, write ++ List.replicate (m - write.length) filler) ∧
    (transfer m write inc filler).2.length = max m write.length := by
  have h := transferGo_spec inc filler m 0 write
  constructor
  · rw [transfer, h, List.range_eq_range']
  · rw [transfer, h]
    simp only [List.length_append, List.length_replicate]
    omega

/-- C9: the on-wire address encoding. 7-bit mode: one byte, the address
doubled with the direction in the low bit (so 0x15 written gives 0x2A).
10-bit mode: two bytes, the first carrying the fixed `11110` prefix (its value
divided by 8 is 0b11110 = 30), the two high address bits and the direction
bit, the second the low eight address bits (so 0x158 read gives 0xF3, 0x58). -/
theorem encodeAddress_spec (a7 a10 : Nat) (d : Direction) (h7 : a7 < 128)
    (h10 : a10 < 1024) :
    (encodeAddress AddressMode.SevenBit a7 d = [2 * a7 + d.bit] ∧
      2 * a7 + d.bit < 256) ∧
    (encodeAddress AddressMode.TenBit a10 d
        = [240 + 2 * (a10 / 256) + d.bit, a10 % 256] ∧
      (240 + 2 * (a10 / 256) + d.bit) / 8 = 30 ∧
      (240 + 2 * (a10 / 256) + d.bit) % 2 = d.bit ∧
      (240 + 2 * (a10 / 256) + d.bit) / 2 % 4 = a10 / 256 ∧
      a10 % 256 < 256 ∧ 240 + 2 * (a10 / 256) + d.bit < 256) ∧
    encodeAddress AddressMode.SevenBit 0x15 Direction.write = [0x2A] ∧
    encodeAddress AddressMode.TenBit 0x158 Direction.read = [0xF3, 0x58] := by
  have hbit : d.bit ≤ 1 := by cases d <;> decide
  have hq : a10 / 256 < 4 := by omega
  have hmod : a10 % 256 < 256 := by omega
  refine ⟨⟨?_, by omega⟩, ⟨?_, by omega, by omega, by omega, hmod, by omega⟩,
    by decide, by decide⟩
  · show [(a7 <<< 1) ||| d.bit] = [2 * a7 + d.bit]
    congr 1
    rw [Nat.shiftLeft_eq, Nat.mul_comm a7 (2 ^ 1),
      ← Nat.mul_add_lt_is_or (show d.bit < 2 ^ 1 by omega) a7]
  · show [0xF0 ||| ((a10 >>> 8) <<< 1 ||| d.bit), a10 % 256]
      = [240 + 2 * (a10 / 256) + d.bit, a10 % 256]
    congr 1
    rw [Nat.shiftRight_eq_div_pow, Nat.shiftLeft_eq]
    have h1 : a10 / 2 ^ 8 * 2 ^ 1 ||| d.bit = 2 ^ 1 * (a10 / 2 ^ 8) + d.bit := by
      rw [Nat.mul_comm (a10 / 2 ^ 8) (2 ^ 1),
        ← Nat.mul_add_lt_is_or (show d.bit < 2 ^ 1 by omega) (a10 / 2 ^ 8)]
    rw [h1]
    have h256 : (2 : Nat) ^ 8 = 256 := by norm_num
    rw [h256]
    have hlt : 2 ^ 1 * (a10 / 256) + d.bit < 2 ^ 4 := by
      have h2 : (2 : Nat) ^ 1 = 2 := by norm_num
      have h4 : (2 : Nat) ^ 4 = 16 := by norm_num
      omega
    have hF0 : (0xF0 : Nat) = 2 ^ 4 * 15 := by norm_num
    rw [hF0, ← Nat.mul_add_lt_is_or hlt 15]
    have h2 : (2 : Nat) ^ 1 = 2 := by norm_num
    have h4 : (2 : Nat) ^ 4 = 16 := by norm_num
    omega

/-- Witness for C9 at the spec's concrete examples: 7-bit address 0x15 and
10-bit address 0x158, direction read. -/
theorem encodeAddress_spec_witness :
    (0x15 < 128 ∧ 0x158 < 1024) ∧
    ((encodeAddress AddressMode.SevenBit 0x15 Direction.read
        = [2 * 0x15 + Direction.read.bit] ∧ 2 * 0x15 + Direction.read.bit < 256) ∧
    (encodeAddress AddressMode.TenBit 0x158 Direction.read
        = [240 + 2 * (0x158 / 256) + Direction.read.bit, 0x158 % 256] ∧
      (240 + 2 * (0x158 / 256) + Direction.read.bit) / 8 = 30 ∧
      (240 + 2 * (0x158 / 256) + Direction.read.bit) % 2 = Direction.read.bit ∧
      (240 + 2 * (0x158 / 256) + Direction.read.bit) / 2 % 4 = 0x158 / 256 ∧
      0x158 % 256 < 256 ∧ 240 + 2 * (0x158 / 256) + Direction.read.bit < 256) ∧
    encodeAddress AddressMode.SevenBit 0x15 Direction.write = [0x2A] ∧
    encodeAddress AddressMode.TenBit 0x158 Direction.read = [0xF3, 0x58]) :=
  ⟨by decide, encodeAddress_spec 0x15 0x158 Direction.read (by decide) (by decide)⟩

/-- C10: operating through an exclusive `&mut` reference invokes exactly the
underlying implementation with the same arguments for every method of every
bus trait: each forwarding record's methods are equal, as functions, to the
underlying record's methods. -/
theorem mutRef_forwarding {S E : Type} (i1 : I2cRead S E) (i2 : I2cWrite S E)
    (i3 : I2cWriteIter S E) (i4 : I2cWriteRead S E) (i5 : I2cWriteIterRead S E)
    (i6 : I2cTransactional S E) (i7 : I2cTransactionalIter S E) (s1 : SpiRead S E)
    (s2 : SpiWrite S E) (s3 : SpiReadWrite S E) (r1 : SerialRead S E)
    (r2 : SerialWrite S E) :
    i1.mutRef.read = i1.read ∧ i2.mutRef.write = i2.write ∧
    i3.mutRef.write_iter = i3.write_iter ∧ i4.mutRef.write_read = i4.write_read ∧
    i5.mutRef.write_iter_read = i5.write_iter_read ∧ i6.mutRef.exec = i6.exec ∧
    i7.mutRef.exec_iter = i7.exec_iter ∧ s1.mutRef.read = s1.read ∧
    s1.mutRef.read_transaction = s1.read_transaction ∧ s2.mutRef.write = s2.write ∧
    s2.mutRef.write_transaction = s2.write_transaction ∧
    s3.mutRef.transfer = s3.transfer ∧
    s3.mutRef.transfer_in_place = s3.transfer_in_place ∧
    s3.mutRef.transaction = s3.transaction ∧ r1.mutRef.read = r1.read ∧
    r2.mutRef.write = r2.write ∧ r2.mutRef.flush = r2.flush :=
  ⟨rfl, rfl, rfl, rfl, rfl, rfl, rfl, rfl, rfl, rfl, rfl, rfl, rfl, rfl, rfl,
    rfl, rfl⟩
